import Mathlib

/-!
Verification of the decimal-js arithmetic core (src/integer.js, src/decimal.js and
the Rational class) against its natural-language specification.

The JavaScript source works on `BigInt`, whose `/` and `%` truncate toward zero;
they are embedded as `Int.tdiv` and `Int.tmod`.  Loops and the recursive Euclid
are embedded as structural recursion over an explicit fuel argument computed at
the call site; each fuel value is chosen so that it strictly exceeds the number
of iterations the JavaScript loop can perform from that entry state, so the
fuel-exhausted branch is unreachable and the embedding computes by kernel
reduction.  Constructor invariant checks (`denominator <= 0`, `scale < 0`),
which throw `RangeError` in the source, are embedded in the `make` functions
returning `Except Int` carrying the offending field value; arithmetic methods
whose intermediate constructions cannot fail operate on the raw structures.
-/

namespace DecimalJS

/-- Source `max` from src/integer.js: returns `x > y ? x : y`. -/
def max (x y : Int) : Int := if x > y then x else y

/-- Source `min` from src/integer.js.  The source body is `x > y ? x : y`,
the same comparison direction as `max`. -/
def min (x y : Int) : Int := if x > y then x else y

/-- Body of `greatestCommonDivisor` from src/integer.js (recursive Euclid with
the JavaScript remainder `%`, i.e. `Int.tmod`).  Since `|x tmod y| < |y|` for
`y ≠ 0`, the entry fuel `y.natAbs + 1` used below always exceeds the recursion
depth, so the fuel-exhausted branch is unreachable and the function agrees
with the unbounded recursion of the source. -/
def gcdGo : Nat → Int → Int → Int
  | 0, x, _ => x
  | fuel + 1, x, y => if y = 0 then x else gcdGo fuel y (x.tmod y)

/-- Source `greatestCommonDivisor(x, y)` from src/integer.js. -/
def greatestCommonDivisor (x y : Int) : Int := gcdGo (y.natAbs + 1) x y

/-- Source `leastCommonMultiple(x, y)` from src/integer.js:
`x * y / greatestCommonDivisor(x, y)` with BigInt (truncating) division. -/
def leastCommonMultiple (x y : Int) : Int :=
  (x * y).tdiv (greatestCommonDivisor x y)

/-- Body of the `primeFactors` generator from src/integer.js: trial division,
yielding `divisor` and dividing it out when it divides, otherwise incrementing
the candidate.  From the entry state (candidate 2) the loop performs at most
`2 * dividend` iterations (the candidate never exceeds the current dividend and
each division at least halves it), so the entry fuel `2 * dividend + 2` used
below makes the fuel-exhausted branch unreachable. -/
def primeFactorsAux : Nat → Nat → Nat → List Nat
  | 0, _, _ => []
  | fuel + 1, dividend, divisor =>
    if 2 ≤ dividend then
      if dividend % divisor = 0 then
        divisor :: primeFactorsAux fuel (dividend / divisor) divisor
      else
        primeFactorsAux fuel dividend (divisor + 1)
    else []

/-- Source `primeFactors(dividend)` from src/integer.js: the generator first
replaces `dividend` by its absolute value, then trial-divides starting at 2.
The eager list collects exactly the yielded values in order. -/
def primeFactors (dividend : Int) : List Nat :=
  primeFactorsAux (2 * dividend.natAbs + 2) dividend.natAbs 2

/-- Source `distinctPrimeFactors(dividend)` from src/integer.js:
`new Set(primeFactors(dividend))`; only membership in the set is ever used,
which `List.dedup` preserves. -/
def distinctPrimeFactors (dividend : Int) : List Nat :=
  (primeFactors dividend).dedup

/-- Source `isTerminating(dividend, divisor)` from src/integer.js: every value
yielded by `primeFactors(divisor)` must be a member of
`distinctPrimeFactors(dividend)`. -/
def isTerminating (dividend divisor : Int) : Bool :=
  let distinct := distinctPrimeFactors dividend
  (primeFactors divisor).all fun p => distinct.contains p

/-- Field pair of the source `Rational` class: `numerator` and `denominator`,
both arbitrary-precision integers. -/
structure Rational where
  numerator : Int
  denominator : Int
deriving DecidableEq

/-- Source `Rational` constructor: throws a `RangeError` carrying the offending
denominator when `denominator <= 0n`, otherwise yields the value. -/
def Rational.make (numerator denominator : Int) : Except Int Rational :=
  if denominator ≤ 0 then .error denominator
  else .ok ⟨numerator, denominator⟩

/-- Source `Rational.prototype.times(...those)`: numerators multiply and
denominators multiply, folding over the variadic argument list. -/
def Rational.times (a : Rational) (those : List Rational) : Rational :=
  those.foldl
    (fun acc that => ⟨acc.numerator * that.numerator, acc.denominator * that.denominator⟩) a

/-- Loop body of source `Rational.prototype.dividedBy(...those)`: for each
divisor with positive numerator, cross-multiply; with negative numerator,
cross-multiply by the negations so the running denominator stays positive;
with zero numerator, throw.  The thrown `RangeError` message interpolates the
accumulated dividend `new Rational(numerator, denominator)` and the offending
divisor `that`; the error payload here is that pair. -/
def Rational.dividedByAux :
    Int → Int → List Rational → Except (Rational × Rational) (Int × Int)
  | numerator, denominator, [] => .ok (numerator, denominator)
  | numerator, denominator, that :: those =>
    if that.numerator > 0 then
      Rational.dividedByAux (numerator * that.denominator) (denominator * that.numerator) those
    else if that.numerator < 0 then
      Rational.dividedByAux (numerator * -that.denominator) (denominator * -that.numerator) those
    else
      .error (⟨numerator, denominator⟩, that)

/-- Source `Rational.prototype.dividedBy(...those)` assembling the final
`new Rational(numerator, denominator)` from the loop result. -/
def Rational.dividedBy (a : Rational) (those : List Rational) :
    Except (Rational × Rational) Rational :=
  match Rational.dividedByAux a.numerator a.denominator those with
  | .ok (numerator, denominator) => .ok ⟨numerator, denominator⟩
  | .error e => .error e

/-- Source `Rational.prototype.simplify()`: divides both fields by
`greatestCommonDivisor(numerator, denominator)` and rebuilds through the
checked constructor (which throws when the resulting denominator is not
positive, e.g. when the source gcd comes out negative). -/
def Rational.simplify (a : Rational) : Except Int Rational :=
  let gcd := greatestCommonDivisor a.numerator a.denominator
  Rational.make (a.numerator.tdiv gcd) (a.denominator.tdiv gcd)

/-- Source `Rational.prototype.compare(that, predicate)`: align both operands
to the least common multiple of the denominators by `times` with unit-valued
scaling rationals, then apply the predicate. -/
def Rational.compare (a that : Rational) (predicate : Rational → Rational → Bool) : Bool :=
  let lcm := leastCommonMultiple a.denominator that.denominator
  let u := lcm.tdiv a.denominator
  let v := lcm.tdiv that.denominator
  let x := a.times [⟨u, u⟩]
  let y := that.times [⟨v, v⟩]
  predicate x y

/-- Source `Rational.prototype.equalTo(that)`: `compare` with numerator
equality. -/
def Rational.equalTo (a that : Rational) : Bool :=
  a.compare that fun x y => x.numerator == y.numerator

/-- Field pair of the source `Decimal` class: `digits` and `scale`, both
arbitrary-precision integers, denoting `digits * 10 ^ (-scale)`. -/
structure Decimal where
  digits : Int
  scale : Int
deriving DecidableEq

/-- Source `Decimal` constructor: throws a `RangeError` carrying the offending
scale when `scale < 0n`, otherwise yields the value. -/
def Decimal.make (digits scale : Int) : Except Int Decimal :=
  if scale < 0 then .error scale else .ok ⟨digits, scale⟩

/-- Source `Decimal.prototype.toRational()`: `new Rational(digits, 10n ** scale)`.
A `Decimal` built by the source constructor always has `scale ≥ 0`, under which
`10 ^ scale.toNat` is exactly the BigInt power. -/
def Decimal.toRational (a : Decimal) : Rational :=
  ⟨a.digits, 10 ^ a.scale.toNat⟩

/-- Source `Decimal.prototype.dividedBy(...those)`: converts the receiver and
every operand through `toRational` and delegates to `Rational.dividedBy`; the
result type is `Rational`, not `Decimal`. -/
def Decimal.dividedBy (a : Decimal) (those : List Decimal) :
    Except (Rational × Rational) Rational :=
  a.toRational.dividedBy (those.map Decimal.toRational)

/-- Source `Decimal.prototype.toScale(scale)`: rescale up by multiplying the
digits by a power of ten, rescale down by truncating division, or return the
receiver unchanged. -/
def Decimal.toScale (a : Decimal) (scale : Int) : Decimal :=
  let difference := scale - a.scale
  if difference > 0 then ⟨a.digits * 10 ^ difference.toNat, scale⟩
  else if difference < 0 then ⟨a.digits.tdiv (10 ^ (-difference).toNat), scale⟩
  else a

/-- Source `Decimal.prototype.compare(that, predicate)`: align both operands to
the larger scale via `toScale` and apply the predicate. -/
def Decimal.compare (a that : Decimal) (predicate : Decimal → Decimal → Bool) : Bool :=
  let scale := DecimalJS.max a.scale that.scale
  predicate (a.toScale scale) (that.toScale scale)

/-- Source `Decimal.prototype.equalTo(that)`: `compare` with digit equality. -/
def Decimal.equalTo (a that : Decimal) : Bool :=
  a.compare that fun x y => x.digits == y.digits

/-- Guard `s < limit` of the long-division loop in `Rational.prototype.toDecimal`:
`limit` is `Infinity` (modelled `none`, always true) in the terminating case
and the requested scale otherwise. -/
def limOK : Option Int → Int → Bool
  | none, _ => true
  | some l, s => decide (s < l)

/-- Long-division loop of source `Rational.prototype.toDecimal`:
while the remainder is nonzero and the digit counter is below the limit,
append the next quotient digit and step the remainder.  In the terminating
case the remainder reaches zero after at most `|denominator|` steps and in the
truncating case the counter reaches the limit after `scale` steps, so the
entry fuel `|denominator| + scale.toNat + 1` used below makes the
fuel-exhausted branch unreachable. -/
def toDecimalLoop : Nat → Int → Int → Int → Int → Option Int → Int
  | 0, _, digits, _, _, _ => digits
  | fuel + 1, denominator, digits, remainder, s, limit =>
    if remainder != 0 && limOK limit s then
      toDecimalLoop fuel denominator
        (digits * 10 + (remainder * 10).tdiv denominator)
        ((remainder * 10).tmod denominator) (s + 1) limit
    else digits

/-- Source `Rational.prototype.toDecimal(scale = 16n)`: integer part and
remainder by truncating division, then the long-division loop, and finally
`new Decimal(digits, scale)` built with the scale ARGUMENT (not the number of
fractional digits actually produced).  The source default argument is 16. -/
def Rational.toDecimal (a : Rational) (scale : Int) : Decimal :=
  let limit := if isTerminating 10 a.denominator then none else some scale
  let digits := a.numerator.tdiv a.denominator
  let remainder := a.numerator.tmod a.denominator
  ⟨toDecimalLoop (a.denominator.natAbs + scale.toNat + 1) a.denominator
      digits remainder 0 limit,
    scale⟩

/-- Loop of source `Decimal.prototype.toString()`: peel `scale` characters off
the right end of the textual digits (padding with the character 0 when the
list is exhausted), prepending each to the accumulator, and prepend the
decimal point when the counter hits zero inside the loop. -/
def toStringGo : List Char → Nat → String → List Char × String
  | ds, 0, acc => (ds, acc)
  | ds, k + 1, acc =>
    let acc1 := String.mk [ds.getLast?.getD '0'] ++ acc
    let acc2 := if k = 0 then "." ++ acc1 else acc1
    toStringGo ds.dropLast k acc2

/-- Source `Decimal.prototype.toString()`: run the peeling loop over the
characters of `String(digits)`, then if the remaining character list is empty
or just the minus sign, append the character 0 to it, and concatenate. -/
def Decimal.toString (a : Decimal) : String :=
  let p := toStringGo (ToString.toString a.digits).toList a.scale.toNat ""
  let ds := if p.1 = [] ∨ p.1 = ['-'] then p.1 ++ ['0'] else p.1
  String.mk ds ++ p.2

/-- Mathematical value of a `Rational` as an exact rational number:
`numerator / denominator`.  Specification-side semantics used to state
exactness claims. -/
def Rational.exactValue (a : Rational) : ℚ :=
  (a.numerator : ℚ) / (a.denominator : ℚ)

/-- Mathematical value of a `Decimal` as an exact rational number:
`digits * 10 ^ (-scale)`.  Specification-side semantics used to state
exactness claims. -/
def Decimal.exactValue (a : Decimal) : ℚ :=
  (a.digits : ℚ) / 10 ^ a.scale.toNat

/-- Absolute value of the truncating remainder: JavaScript `%` keeps the
dividend's sign, so its magnitude is the natural-number remainder of the
magnitudes. -/
theorem natAbs_tmod (x y : Int) : (x.tmod y).natAbs = x.natAbs % y.natAbs := by
  cases x <;> cases y <;>
    simp only [Int.tmod, Int.ofNat_eq_natCast, Int.natAbs_neg, Int.natAbs_ofNat,
      Int.natAbs_negSucc, Nat.succ_eq_add_one]

/-- Negation of the truncating remainder in the dividend. -/
theorem neg_tmod (a b : Int) : (-a).tmod b = -(a.tmod b) := by
  rw [Int.tmod_def, Int.tmod_def, Int.neg_tdiv]
  ring

/-- On nonnegative inputs the source Euclid computes the mathematical gcd of
the absolute values. -/
theorem gcdGo_eq_gcd (fuel : Nat) :
    ∀ x y : Int, 0 ≤ x → 0 ≤ y → y.natAbs < fuel →
      gcdGo fuel x y = (Nat.gcd x.natAbs y.natAbs : Int) := by
  induction fuel with
  | zero => exact fun x y _ _ h => absurd h (Nat.not_lt_zero _)
  | succ f ih =>
    intro x y hx hy hfy
    by_cases hy0 : y = 0
    · subst hy0
      simp [gcdGo, Int.natAbs_of_nonneg hx]
    · have hstep : gcdGo (f + 1) x y = gcdGo f y (x.tmod y) := by
        simp [gcdGo, hy0]
      have hypos : 0 < y.natAbs := Int.natAbs_pos.mpr hy0
      have hlt : (x.tmod y).natAbs < f := by
        have h1 := natAbs_tmod x y
        have h2 := Nat.mod_lt x.natAbs hypos
        omega
      rw [hstep, ih y (x.tmod y) hy (Int.tmod_nonneg y hx) hlt, natAbs_tmod]
      congr 1
      rw [Nat.gcd_comm y.natAbs, ← Nat.gcd_rec, Nat.gcd_comm]

/-- Entry-point form of `gcdGo_eq_gcd` for `greatestCommonDivisor`. -/
theorem greatestCommonDivisor_eq_gcd {x y : Int} (hx : 0 ≤ x) (hy : 0 ≤ y) :
    greatestCommonDivisor x y = (Nat.gcd x.natAbs y.natAbs : Int) :=
  gcdGo_eq_gcd (y.natAbs + 1) x y hx hy (Nat.lt_succ_self _)

/-- Magnitude of the source Euclid on arbitrary inputs: the remainder chain's
magnitudes follow the natural-number Euclid, so the result has the magnitude
of the mathematical gcd (its SIGN, however, depends on the parity of the
chain, which is what makes `simplify` fail on some negative numerators). -/
theorem gcdGo_natAbs (fuel : Nat) :
    ∀ x y : Int, y.natAbs < fuel →
      (gcdGo fuel x y).natAbs = Nat.gcd x.natAbs y.natAbs := by
  induction fuel with
  | zero => exact fun x y h => absurd h (Nat.not_lt_zero _)
  | succ f ih =>
    intro x y hfy
    by_cases hy0 : y = 0
    · subst hy0
      simp [gcdGo]
    · have hstep : gcdGo (f + 1) x y = gcdGo f y (x.tmod y) := by
        simp [gcdGo, hy0]
      have hypos : 0 < y.natAbs := Int.natAbs_pos.mpr hy0
      have hlt : (x.tmod y).natAbs < f := by
        have h1 := natAbs_tmod x y
        have h2 := Nat.mod_lt x.natAbs hypos
        omega
      rw [hstep, ih y (x.tmod y) hlt, natAbs_tmod]
      rw [Nat.gcd_comm y.natAbs, ← Nat.gcd_rec, Nat.gcd_comm]

/-- The truncating remainder scales with a positive common factor of both
operands. -/
theorem tmod_scale (c x y : Int) (hc : 0 < c) :
    (c * x).tmod (c * y) = c * x.tmod y := by
  have habs : ((c * x).tmod (c * y)).natAbs = (c * x.tmod y).natAbs := by
    rw [natAbs_tmod, Int.natAbs_mul, Int.natAbs_mul, Int.natAbs_mul, natAbs_tmod,
      Nat.mul_mod_mul_left]
  rcases le_or_lt 0 x with hx | hx
  · have h1 : 0 ≤ (c * x).tmod (c * y) := Int.tmod_nonneg (c * y) (mul_nonneg hc.le hx)
    have h2 : 0 ≤ c * x.tmod y := mul_nonneg hc.le (Int.tmod_nonneg y hx)
    rcases Int.natAbs_eq_natAbs_iff.mp habs with h | h
    · exact h
    · omega
  · have hx' : (0 : Int) ≤ -x := by omega
    have h1 : (c * x).tmod (c * y) ≤ 0 := by
      have he : c * x = -(c * -x) := by ring
      rw [he, neg_tmod]
      have := Int.tmod_nonneg (c * y) (mul_nonneg hc.le hx')
      omega
    have h2 : c * x.tmod y ≤ 0 := by
      have hxm : x.tmod y = -((-x).tmod y) := by rw [← neg_tmod, neg_neg]
      rw [hxm]
      have := Int.tmod_nonneg y hx'
      nlinarith
    rcases Int.natAbs_eq_natAbs_iff.mp habs with h | h
    · exact h
    · omega

/-- The whole signed remainder chain of the source Euclid, and hence its
result, scales with a positive common factor of both operands. -/
theorem gcdGo_scale (fuel : Nat) :
    ∀ c x y : Int, 0 < c → gcdGo fuel (c * x) (c * y) = c * gcdGo fuel x y := by
  induction fuel with
  | zero => intro c x y _; rfl
  | succ f ih =>
    intro c x y hc
    by_cases hy : y = 0
    · subst hy
      simp [gcdGo]
    · have hcy : c * y ≠ 0 := mul_ne_zero (ne_of_gt hc) hy
      simp only [gcdGo, if_neg hy, if_neg hcy]
      rw [tmod_scale c x y hc, ih c y (x.tmod y) hc]

/-- The fuel does not matter once it exceeds the Euclid recursion depth. -/
theorem gcdGo_fuel_irrel : ∀ f1 f2 : Nat, ∀ x y : Int,
    y.natAbs < f1 → y.natAbs < f2 → gcdGo f1 x y = gcdGo f2 x y := by
  intro f1
  induction f1 with
  | zero => intro f2 x y h1 _; exact absurd h1 (Nat.not_lt_zero _)
  | succ f ih =>
    intro f2 x y h1 h2
    by_cases hy : y = 0
    · subst hy
      obtain ⟨f2', rfl⟩ : ∃ k, f2 = k + 1 := ⟨f2 - 1, by omega⟩
      simp [gcdGo]
    · obtain ⟨f2', rfl⟩ : ∃ k, f2 = k + 1 := ⟨f2 - 1, by omega⟩
      simp only [gcdGo, if_neg hy]
      have hlt : (x.tmod y).natAbs < y.natAbs := by
        rw [natAbs_tmod]
        exact Nat.mod_lt _ (Int.natAbs_pos.mpr hy)
      exact ih f2' y (x.tmod y) (by omega) (by omega)

/-- Entry-point scaling for `greatestCommonDivisor`. -/
theorem greatestCommonDivisor_scale (c x y : Int) (hc : 0 < c) :
    greatestCommonDivisor (c * x) (c * y) = c * greatestCommonDivisor x y := by
  unfold greatestCommonDivisor
  rw [gcdGo_scale ((c * y).natAbs + 1) c x y hc]
  congr 1
  apply gcdGo_fuel_irrel
  · rw [Int.natAbs_mul]
    have hc1 : 1 ≤ c.natAbs := Int.natAbs_pos.mpr (ne_of_gt hc)
    have := Nat.le_mul_of_pos_left y.natAbs (by omega : 0 < c.natAbs)
    omega
  · exact Nat.lt_succ_self _

/-- Entry-point magnitude for `greatestCommonDivisor`. -/
theorem greatestCommonDivisor_natAbs (x y : Int) :
    (greatestCommonDivisor x y).natAbs = Nat.gcd x.natAbs y.natAbs :=
  gcdGo_natAbs (y.natAbs + 1) x y (Nat.lt_succ_self _)

/-- Divisibility by a natural-number cast in terms of the absolute value. -/
theorem natCast_dvd_iff (p : Nat) (x : Int) : (p : Int) ∣ x ↔ p ∣ x.natAbs := by
  rw [← Int.dvd_natAbs, Int.natCast_dvd_natCast]

/-- Claim C2: the spec intends `min(x, y)` to return the smaller operand, in
particular `min(3, 5) = 3`; the source instead computes `x > y ? x : y`
(identical to `max`), so evaluating the embedded code at the failing input
gives `min 3 5 = 5`. -/
theorem min_three_five_eq_five : DecimalJS.min 3 5 = 5 := rfl

/-- Claim C4: the spec claims `toString` always renders the canonical
left-zero-padded form with the decimal point `scale` digits from the right;
evaluating the embedded code at the failing input `digits = -5, scale = 2`
(mathematical value -0.05) yields the malformed string where the minus sign
was consumed as a digit during padding. -/
theorem toString_negative_fraction_bug :
    Decimal.toString ⟨-5, 2⟩ = "0.-5" := rfl

/-- Claim C10: for every Rational and every non-negative requested scale `s`,
`toDecimal` returns a Decimal whose `scale` field is exactly `s`, because the
source builds `new Decimal(digits, scale)` from the scale argument even when
the long-division loop stopped after fewer fractional digits. -/
theorem toDecimal_scale_eq_argument (a : Rational) (s : Int) (_h : 0 ≤ s) :
    (a.toDecimal s).scale = s := rfl

/-- Witness for C10: `Rational(1, 2).toDecimal(16)` (16 is the source default
scale) has scale field 16 although the expansion 0.5 terminates after one
digit. -/
theorem toDecimal_scale_eq_argument_witness :
    (Rational.toDecimal ⟨1, 2⟩ 16).scale = 16 :=
  toDecimal_scale_eq_argument ⟨1, 2⟩ 16 (by decide)

/-- Claim C8: constructing `Rational(n, d)` fails, with a range error carrying
the offending value, exactly when `d ≤ 0`, and constructing `Decimal(m, s)`
fails, carrying the offending value, exactly when `s < 0`. -/
theorem construction_invariants (n d m s : Int) :
    ((Rational.make n d).toOption = none ↔ d ≤ 0) ∧
    (d ≤ 0 → Rational.make n d = .error d) ∧
    ((Decimal.make m s).toOption = none ↔ s < 0) ∧
    (s < 0 → Decimal.make m s = .error s) := by
  unfold Rational.make Decimal.make
  refine ⟨?_, ?_, ?_, ?_⟩ <;> split <;> simp_all [Except.toOption]

/-- Witness for C8 at `Rational(5, 0)` and `Decimal(5, -1)`: both constructions
fail carrying the offending field value. -/
theorem construction_invariants_witness :
    (Rational.make 5 0).toOption = none ∧ Rational.make 5 0 = .error 0 ∧
    (Decimal.make 5 (-1)).toOption = none ∧ Decimal.make 5 (-1) = .error (-1) := by
  obtain ⟨h1, h2, h3, h4⟩ := construction_invariants 5 0 5 (-1)
  exact ⟨h1.mpr (by decide), h2 (by decide), h3.mpr (by decide), h4 (by decide)⟩

/-- Counterexample to claim C1 as stated: for the Decimal with digits 10 and
scale 1 (value 1.0), converting to `Rational(10, 10)` and back at scale 1
long-divides to quotient 1 with remainder 0 immediately, yielding
`Decimal(1, 1)` (value 0.1), which does not compare equal to the original. -/
theorem roundtrip_cex :
    Decimal.equalTo ((Decimal.toRational ⟨10, 1⟩).toDecimal 1) ⟨10, 1⟩ = false := by
  decide

/-- Counterexample to claim C3 as stated: `Rational(-1, 2).simplify()` fails,
because the source Euclid returns gcd -1 (the JavaScript remainder keeps the
dividend's sign), so the rebuilt denominator is -2 and the constructor throws
its range error. -/
theorem simplify_fails_cex : Rational.simplify ⟨-1, 2⟩ = .error (-2) := rfl

/-- Counterexample to claim C5 as stated: for the nonzero integer k = -1 (with
n = 1, d = 1), the value `Rational(n * k, d * k)` cannot even be constructed:
the constructor rejects the non-positive denominator, so the claimed equality
does not hold for all nonzero k. -/
theorem equalTo_scaled_cex : Rational.make (1 * -1) (1 * -1) = .error (-1) := rfl

/-- The long-division loop stops immediately on a zero remainder. -/
theorem toDecimalLoop_rem_zero (fuel : Nat) (den dg s : Int) (limit : Option Int) :
    toDecimalLoop fuel den dg 0 s limit = dg := by
  cases fuel <;> simp [toDecimalLoop]

/-- The long-division loop commutes with negating the accumulated digits and
the remainder (truncating division and remainder are odd in the dividend). -/
theorem toDecimalLoop_neg (den : Int) (fuel : Nat) :
    ∀ (dg rm s : Int) (limit : Option Int),
      toDecimalLoop fuel den (-dg) (-rm) s limit = -toDecimalLoop fuel den dg rm s limit := by
  induction fuel with
  | zero => intro dg rm s limit; rfl
  | succ f ih =>
    intro dg rm s limit
    have hceq : ((-rm) != 0 && limOK limit s) = (rm != 0 && limOK limit s) := by
      rcases eq_or_ne rm 0 with h | h
      · subst h; rw [neg_zero]
      · have h1 : (rm != 0) = true := bne_iff_ne.mpr h
        have h2 : ((-rm) != 0) = true := bne_iff_ne.mpr (neg_ne_zero.mpr h)
        rw [h1, h2]
    simp only [toDecimalLoop, hceq]
    by_cases hc : (rm != 0 && limOK limit s) = true
    · rw [if_pos hc, if_pos hc, neg_mul, neg_mul, Int.neg_tdiv, neg_tmod, ← neg_add, ih]
    · rw [if_neg hc, if_neg hc]

/-- One long-division step on a nonnegative dividend: shifting the truncated
quotient left and dividing the shifted remainder produces the quotient of the
shifted dividend, and likewise for the remainder. -/
theorem tdiv_tmod_step (a d : Int) (ha : 0 ≤ a) (hd : 0 < d) :
    a.tdiv d * 10 + (a.tmod d * 10).tdiv d = (a * 10).tdiv d ∧
    (a.tmod d * 10).tmod d = (a * 10).tmod d := by
  have hm : 0 ≤ a.tmod d := Int.tmod_nonneg d ha
  have h10 : (0 : Int) ≤ 10 := by norm_num
  rw [Int.tmod_eq_emod ha hd.le, Int.tdiv_eq_ediv ha hd.le,
    Int.tdiv_eq_ediv (mul_nonneg (Int.emod_nonneg a (ne_of_gt hd)) h10) hd.le,
    Int.tdiv_eq_ediv (mul_nonneg ha h10) hd.le,
    Int.tmod_eq_emod (mul_nonneg (Int.emod_nonneg a (ne_of_gt hd)) h10) hd.le,
    Int.tmod_eq_emod (mul_nonneg ha h10) hd.le]
  constructor
  · conv_rhs => rw [← Int.ediv_add_emod a d]
    rw [add_mul, mul_assoc, add_comm (d * (a / d * 10)) (a % d * 10),
      Int.add_mul_ediv_left (a % d * 10) (a / d * 10) (ne_of_gt hd)]
    exact add_comm _ _
  · conv_lhs => rw [Int.mul_emod, Int.emod_emod_of_dvd _ dvd_rfl]
    conv_rhs => rw [Int.mul_emod]

/-- Running the long-division loop from the state reached after shifting the
dividend by `10 ^ j`: if the divisor fails to divide the shifted dividend for
`K` further shifts, divides it at shift `K`, and the limit guard stays open
for those `K` steps, the loop performs exactly `K` iterations and produces
the truncated quotient of the dividend shifted by `10 ^ (j + K)`. -/
theorem toDecimalLoop_run (den n : Int) (hden : 0 < den) (hn : 0 ≤ n) :
    ∀ (K fuel j : Nat) (s0 : Int) (limit : Option Int),
      K ≤ fuel →
      (∀ i : Nat, i < K → ¬ den ∣ n * 10 ^ (j + i)) →
      den ∣ n * 10 ^ (j + K) →
      (∀ i : Nat, i < K → limOK limit (s0 + (i : Int)) = true) →
      toDecimalLoop fuel den ((n * 10 ^ j).tdiv den) ((n * 10 ^ j).tmod den) s0 limit
        = (n * 10 ^ (j + K)).tdiv den := by
  intro K
  induction K with
  | zero =>
    intro fuel j s0 limit _ _ hdvd _
    rw [Nat.add_zero] at hdvd ⊢
    rw [Int.tmod_eq_zero_of_dvd hdvd, toDecimalLoop_rem_zero]
  | succ K ih =>
    intro fuel j s0 limit hfuel hndvd hdvd hlim
    obtain ⟨f, rfl⟩ : ∃ f, fuel = f + 1 := ⟨fuel - 1, by omega⟩
    have hrem_ne : (n * 10 ^ j).tmod den ≠ 0 := by
      intro h0
      exact hndvd 0 (Nat.succ_pos K)
        (by simpa using Int.dvd_of_tmod_eq_zero h0)
    have hlim0 : limOK limit s0 = true := by simpa using hlim 0 (Nat.succ_pos K)
    have hcond : ((n * 10 ^ j).tmod den != 0 && limOK limit s0) = true := by
      rw [Bool.and_eq_true, bne_iff_ne]
      exact ⟨hrem_ne, hlim0⟩
    have hstep := tdiv_tmod_step (n * 10 ^ j) den (by positivity) hden
    have hpow : n * 10 ^ j * 10 = n * 10 ^ (j + 1) := by rw [pow_succ]; ring
    rw [toDecimalLoop, if_pos hcond, hstep.1, hstep.2, hpow]
    have hih := ih f (j + 1) (s0 + 1) limit (by omega)
      (fun i hi => by
        have := hndvd (i + 1) (by omega)
        rwa [(by omega : j + (i + 1) = j + 1 + i)] at this)
      (by rwa [(by omega : j + (K + 1) = j + 1 + K)] at hdvd)
      (fun i hi => by
        have h2 := hlim (i + 1) (by omega)
        rw [Nat.cast_add, Nat.cast_one] at h2
        rwa [show s0 + ((i : Int) + 1) = s0 + 1 + (i : Int) by ring] at h2)
    rw [hih, (by omega : j + 1 + K = j + (K + 1))]

/-- Expansion of `n / 10 ^ sn` by the long-division loop when 10 does not
divide `n` and `n` is nonnegative: the loop runs exactly `sn` steps and
reproduces `n`. -/
theorem toDecimalLoop_expand (den n : Int) (sn fuel : Nat) (limit : Option Int)
    (hn : 0 ≤ n) (hpow : den = 10 ^ sn) (h10 : ¬ (10 : Int) ∣ n)
    (hfuel : sn ≤ fuel)
    (hlim : ∀ i : Nat, i < sn → limOK limit ((0 : Int) + (i : Int)) = true) :
    toDecimalLoop fuel den (n.tdiv den) (n.tmod den) 0 limit = n := by
  have hden : (0 : Int) < den := by rw [hpow]; positivity
  have h0 : n.tdiv den = (n * 10 ^ 0).tdiv den := by rw [pow_zero, mul_one]
  have h0' : n.tmod den = (n * 10 ^ 0).tmod den := by rw [pow_zero, mul_one]
  rw [h0, h0']
  have hndvd : ∀ i : Nat, i < sn → ¬ den ∣ n * 10 ^ (0 + i) := by
    intro i hi hdvd
    rw [Nat.zero_add] at hdvd
    have hsplit : den = 10 ^ i * 10 ^ (sn - i) := by
      rw [hpow, ← pow_add]
      congr 1
      omega
    rw [hsplit, mul_comm n (10 ^ i)] at hdvd
    have h1 : (10 : Int) ^ (sn - i) ∣ n :=
      (mul_dvd_mul_iff_left (pow_ne_zero i (by norm_num : (10 : Int) ≠ 0))).mp hdvd
    exact h10 (dvd_trans (dvd_pow_self 10 (by omega : sn - i ≠ 0)) h1)
  have hdvd : den ∣ n * 10 ^ (0 + sn) := by
    rw [Nat.zero_add, ← hpow]
    exact dvd_mul_left den n
  rw [toDecimalLoop_run den n hden hn sn fuel 0 0 limit hfuel hndvd hdvd hlim,
    Nat.zero_add, ← hpow]
  exact Int.mul_tdiv_cancel n (ne_of_gt hden)

/-- Reflexivity of the source Decimal equality on identical field pairs. -/
theorem decimal_equalTo_refl (x sc : Int) :
    Decimal.equalTo ⟨x, sc⟩ ⟨x, sc⟩ = true := by
  simp [Decimal.equalTo, Decimal.compare, Decimal.toScale, DecimalJS.max, sub_self]

/-- Claim C3 (amended): for every valid Rational, `simplify` succeeds exactly
when the source gcd `greatestCommonDivisor(numerator, denominator)` is
positive (the truncating-division Euclid always returns the magnitude of the
mathematical gcd but can return it negatively for negative numerators, e.g.
`Rational(-1, 2)`; see the counterexample), and whenever `simplify` succeeds,
simplifying the result again succeeds with identical fields. -/
theorem simplify_idempotent_amended (a : Rational) (hd : 0 < a.denominator) :
    ((∃ a', a.simplify = .ok a') ↔
      0 < greatestCommonDivisor a.numerator a.denominator) ∧
    (∀ a', a.simplify = .ok a' → a'.simplify = .ok a') := by
  obtain ⟨n, d⟩ := a
  simp only at hd
  set G : Int := greatestCommonDivisor n d with hGdef
  have habs : G.natAbs = Nat.gcd n.natAbs d.natAbs := greatestCommonDivisor_natAbs n d
  have hG0 : G ≠ 0 := by
    have h1 : 0 < Nat.gcd n.natAbs d.natAbs :=
      Nat.gcd_pos_of_pos_right _ (Int.natAbs_pos.mpr (ne_of_gt hd))
    intro h
    rw [h] at habs
    simp at habs
    omega
  have hGdn : G ∣ n := Int.natAbs_dvd.mp ((natCast_dvd_iff _ _).mpr (habs ▸ Nat.gcd_dvd_left _ _))
  have hGdd : G ∣ d := Int.natAbs_dvd.mp ((natCast_dvd_iff _ _).mpr (habs ▸ Nat.gcd_dvd_right _ _))
  have hdeq : G * d.tdiv G = d := Int.mul_tdiv_cancel' hGdd
  have hneq : G * n.tdiv G = n := Int.mul_tdiv_cancel' hGdn
  have hsign : 0 < d.tdiv G ↔ 0 < G := by
    constructor
    · intro ht
      rcases mul_pos_iff.mp (hdeq ▸ hd) with ⟨h1, _⟩ | ⟨_, h2⟩
      · exact h1
      · omega
    · intro hg
      rcases mul_pos_iff.mp (hdeq ▸ hd) with ⟨_, h2⟩ | ⟨h1, _⟩
      · exact h2
      · omega
  have hform : Rational.simplify ⟨n, d⟩ = Rational.make (n.tdiv G) (d.tdiv G) := rfl
  constructor
  · constructor
    · rintro ⟨a', ha⟩
      rw [hform] at ha
      unfold Rational.make at ha
      by_cases hle : d.tdiv G ≤ 0
      · rw [if_pos hle] at ha
        cases ha
      · exact hsign.mp (by omega)
    · intro hg
      have ht : ¬ d.tdiv G ≤ 0 := not_le.mpr (hsign.mpr hg)
      exact ⟨⟨n.tdiv G, d.tdiv G⟩, by rw [hform]; unfold Rational.make; rw [if_neg ht]⟩
  · intro a' ha
    rw [hform] at ha
    unfold Rational.make at ha
    by_cases hle : d.tdiv G ≤ 0
    · rw [if_pos hle] at ha
      cases ha
    · rw [if_neg hle] at ha
      have hGpos : 0 < G := hsign.mp (by omega)
      obtain rfl : a' = ⟨n.tdiv G, d.tdiv G⟩ := by
        cases ha
        rfl
      have hscale : G = G * greatestCommonDivisor (n.tdiv G) (d.tdiv G) := by
        conv_lhs => rw [hGdef, ← hneq, ← hdeq]
        exact greatestCommonDivisor_scale G (n.tdiv G) (d.tdiv G) hGpos
      have hone : greatestCommonDivisor (n.tdiv G) (d.tdiv G) = 1 := by
        have := mul_left_cancel₀ hG0 (by rw [← hscale, mul_one] : G * 1 = G * greatestCommonDivisor (n.tdiv G) (d.tdiv G))
        omega
      show Rational.make ((n.tdiv G).tdiv (greatestCommonDivisor (n.tdiv G) (d.tdiv G)))
          ((d.tdiv G).tdiv (greatestCommonDivisor (n.tdiv G) (d.tdiv G))) = _
      rw [hone, Int.tdiv_one, Int.tdiv_one]
      unfold Rational.make
      rw [if_neg hle]

/-- Witness for amended C3 at `Rational(-4, 6)` (a negative numerator not
divisible by the denominator on which the source gcd is the positive 2):
simplify succeeds, yielding `Rational(-2, 3)`, and is idempotent there. -/
theorem simplify_idempotent_amended_witness :
    ∃ a', Rational.simplify ⟨-4, 6⟩ = .ok a' ∧ Rational.simplify a' = .ok a' := by
  obtain ⟨h1, h2⟩ := simplify_idempotent_amended ⟨-4, 6⟩ (by decide)
  obtain ⟨a', ha⟩ := h1.mpr (by decide)
  exact ⟨a', ha, h2 a' ha⟩

/-- Claim C5 (amended): for every Rational with positive denominator and every
POSITIVE integer k, `Rational(n, d).equalTo(Rational(n * k, d * k))` is true
(the claim as frozen quantifies over all nonzero k, but for negative k the
second value cannot be constructed at all; see the counterexample). -/
theorem equalTo_scaled_amended (n d k : Int) (hd : 0 < d) (hk : 0 < k) :
    Rational.equalTo ⟨n, d⟩ ⟨n * k, d * k⟩ = true := by
  have hdk : (0 : Int) < d * k := mul_pos hd hk
  have hgc : greatestCommonDivisor d (d * k) = d := by
    rw [greatestCommonDivisor_eq_gcd hd.le hdk.le, Int.natAbs_mul,
      Nat.gcd_eq_left (dvd_mul_right _ _), Int.natAbs_of_nonneg hd.le]
  have hlcm : leastCommonMultiple d (d * k) = d * k := by
    rw [leastCommonMultiple, hgc]
    exact Int.mul_tdiv_cancel_left _ (ne_of_gt hd)
  have hu : (d * k).tdiv d = k := Int.mul_tdiv_cancel_left k (ne_of_gt hd)
  have hv : (d * k).tdiv (d * k) = 1 := Int.tdiv_self (ne_of_gt hdk)
  simp [Rational.equalTo, Rational.compare, Rational.times, hlcm, hu, hv]

/-- Witness for amended C5 at `Rational(1, 2)` against `Rational(3, 6)`
(k = 3). -/
theorem equalTo_scaled_amended_witness :
    Rational.equalTo ⟨1, 2⟩ ⟨1 * 3, 2 * 3⟩ = true :=
  equalTo_scaled_amended 1 2 3 (by decide) (by decide)

/-- Correctness of the trial-division loop: from a state where no candidate
below `divisor` divides the current dividend, and with fuel at least the cost
`2 * dividend + 2 - divisor` of the remaining run, the produced list contains
exactly the primes dividing the dividend. -/
theorem primeFactorsAux_mem (fuel : Nat) :
    ∀ dividend divisor : Nat, 1 ≤ dividend → 2 ≤ divisor →
      (∀ m, 2 ≤ m → m < divisor → ¬ m ∣ dividend) →
      2 * dividend + 2 ≤ fuel + divisor →
      ∀ p, p ∈ primeFactorsAux fuel dividend divisor ↔ p.Prime ∧ p ∣ dividend := by
  induction fuel with
  | zero =>
    intro dividend divisor h1 h2 hinv hfuel p
    constructor
    · intro hp
      simp [primeFactorsAux] at hp
    · rintro ⟨hp, hpd⟩
      rcases Nat.lt_or_ge dividend 2 with hd | hd
      · have hd1 : dividend = 1 := by omega
        subst hd1
        have := Nat.dvd_one.mp hpd
        have := hp.one_lt
        omega
      · have hdd : divisor ≤ dividend := by
          by_contra hlt
          push_neg at hlt
          exact hinv dividend hd hlt dvd_rfl
        omega
  | succ f ih =>
    intro dividend divisor h1 h2 hinv hfuel p
    by_cases hd2 : 2 ≤ dividend
    · by_cases hmod : dividend % divisor = 0
      · have hvpos : 0 < divisor := by omega
        have hdvd' : divisor ∣ dividend := Nat.dvd_of_mod_eq_zero hmod
        have hprime : divisor.Prime := by
          rw [Nat.prime_def_lt]
          refine ⟨h2, fun m hm hmd => ?_⟩
          by_contra hm1
          have hm0 : m ≠ 0 := by
            rintro rfl
            have := Nat.eq_zero_of_zero_dvd hmd
            omega
          exact hinv m (by omega) hm (hmd.trans hdvd')
        have hdd : divisor ≤ dividend := Nat.le_of_dvd (by omega) hdvd'
        have hq1 : 1 ≤ dividend / divisor := (Nat.one_le_div_iff hvpos).mpr hdd
        have hinv' : ∀ m, 2 ≤ m → m < divisor → ¬ m ∣ dividend / divisor :=
          fun m hm2 hmlt hmdvd =>
            hinv m hm2 hmlt (hmdvd.trans (Nat.div_dvd_of_dvd hdvd'))
        have hlt : dividend / divisor < dividend := Nat.div_lt_self (by omega) (by omega)
        have hres := ih (dividend / divisor) divisor hq1 h2 hinv' (by omega)
        simp only [primeFactorsAux, if_pos hd2, if_pos hmod, List.mem_cons, hres p]
        constructor
        · rintro (rfl | ⟨hpp, hppd⟩)
          · exact ⟨hprime, hdvd'⟩
          · exact ⟨hpp, hppd.trans (Nat.div_dvd_of_dvd hdvd')⟩
        · rintro ⟨hpp, hppd⟩
          by_cases hpe : p = divisor
          · exact Or.inl hpe
          · refine Or.inr ⟨hpp, ?_⟩
            have hcop : Nat.Coprime p divisor := (Nat.coprime_primes hpp hprime).mpr hpe
            have hmul : p ∣ divisor * (dividend / divisor) := by
              rwa [Nat.mul_div_cancel' hdvd']
            exact hcop.dvd_of_dvd_mul_left hmul
      · have hinv' : ∀ m, 2 ≤ m → m < divisor + 1 → ¬ m ∣ dividend := by
          intro m hm2 hmlt hmdvd
          rcases Nat.lt_or_ge m divisor with hc | hc
          · exact hinv m hm2 hc hmdvd
          · have hme : m = divisor := by omega
            subst hme
            exact hmod (Nat.mod_eq_zero_of_dvd hmdvd)
        have hres := ih dividend (divisor + 1) h1 (by omega) hinv' (by omega)
        simp only [primeFactorsAux, if_pos hd2, if_neg hmod]
        exact hres p
    · have hd1 : dividend = 1 := by omega
      subst hd1
      simp only [primeFactorsAux, if_neg hd2, List.not_mem_nil, false_iff]
      rintro ⟨hp, hpd⟩
      have := Nat.dvd_one.mp hpd
      have := hp.one_lt
      omega

/-- Membership in the source prime-factor list of a nonzero integer is
primality together with divisibility of the absolute value. -/
theorem mem_primeFactors {n : Int} (hn : n ≠ 0) (p : Nat) :
    p ∈ primeFactors n ↔ p.Prime ∧ p ∣ n.natAbs := by
  have h1 : 1 ≤ n.natAbs := Int.natAbs_pos.mpr hn
  exact primeFactorsAux_mem (2 * n.natAbs + 2) n.natAbs 2 h1 (le_refl 2)
    (fun m hm2 hmlt _ => by omega) (by omega) p

/-- Claim C9: for positive integers, `isTerminating(dividend, divisor)` returns
true exactly when every prime factor of the divisor also divides the dividend
(the divisor's distinct prime factors are a subset of the dividend's). -/
theorem isTerminating_iff (dividend divisor : Int)
    (hdvd : 0 < dividend) (hdvs : 0 < divisor) :
    isTerminating dividend divisor = true ↔
      ∀ p : Nat, p.Prime → (p : Int) ∣ divisor → (p : Int) ∣ dividend := by
  simp only [isTerminating]
  rw [List.all_eq_true]
  constructor
  · intro hall p hp hpd
    have hmem : p ∈ primeFactors divisor :=
      (mem_primeFactors (ne_of_gt hdvs) p).mpr ⟨hp, (natCast_dvd_iff p divisor).mp hpd⟩
    have hc := hall p hmem
    have hmem2 : p ∈ primeFactors dividend :=
      List.mem_dedup.mp (List.elem_iff.mp hc)
    exact (natCast_dvd_iff p dividend).mpr
      ((mem_primeFactors (ne_of_gt hdvd) p).mp hmem2).2
  · intro himp p hmem
    obtain ⟨hp, hpd⟩ := (mem_primeFactors (ne_of_gt hdvs) p).mp hmem
    have hdv : (p : Int) ∣ dividend := himp p hp ((natCast_dvd_iff p divisor).mpr hpd)
    have hmem2 : p ∈ primeFactors dividend :=
      (mem_primeFactors (ne_of_gt hdvd) p).mpr ⟨hp, (natCast_dvd_iff p dividend).mp hdv⟩
    exact List.elem_iff.mpr (List.mem_dedup.mpr hmem2)

/-- Witness for C9 at dividend 10 and divisor 4: every prime dividing 4 is 2,
which divides 10, so the theorem yields `isTerminating 10 4 = true`. -/
theorem isTerminating_iff_witness : isTerminating 10 4 = true :=
  (isTerminating_iff 10 4 (by decide) (by decide)).mpr (by
    intro p hp hdvd
    have h4 : p ∣ 4 := (natCast_dvd_iff p 4).mp hdvd
    have h2 : p ∣ 2 := hp.dvd_of_dvd_pow (show p ∣ 2 ^ 2 by norm_num [h4])
    have hp2 : p = 2 := (Nat.prime_dvd_prime_iff_eq hp Nat.prime_two).mp h2
    subst hp2
    exact ⟨5, by norm_num⟩)

/-- The division loop reports an error exactly when some divisor in the list
has numerator zero. -/
theorem dividedByAux_error_iff (l : List Rational) :
    ∀ n d : Int,
      (∃ e, Rational.dividedByAux n d l = .error e) ↔ ∃ t ∈ l, t.numerator = 0 := by
  induction l with
  | nil => intro n d; simp [Rational.dividedByAux]
  | cons t ts ih =>
    intro n d
    by_cases hpos : t.numerator > 0
    · simp only [Rational.dividedByAux, if_pos hpos]
      rw [ih]
      constructor
      · rintro ⟨u, hu, h0⟩
        exact ⟨u, List.mem_cons_of_mem t hu, h0⟩
      · rintro ⟨u, hu, h0⟩
        rcases List.mem_cons.mp hu with rfl | hu'
        · omega
        · exact ⟨u, hu', h0⟩
    · by_cases hneg : t.numerator < 0
      · simp only [Rational.dividedByAux, if_neg hpos, if_pos hneg]
        rw [ih]
        constructor
        · rintro ⟨u, hu, h0⟩
          exact ⟨u, List.mem_cons_of_mem t hu, h0⟩
        · rintro ⟨u, hu, h0⟩
          rcases List.mem_cons.mp hu with rfl | hu'
          · omega
          · exact ⟨u, hu', h0⟩
      · have h0 : t.numerator = 0 := by omega
        simp only [Rational.dividedByAux, if_neg hpos, if_neg hneg]
        constructor
        · intro _
          exact ⟨t, List.mem_cons_self t ts, h0⟩
        · intro _
          exact ⟨(⟨n, d⟩, t), rfl⟩

/-- Running the division loop over a zero-free prefix followed by a zero
divisor: the loop reaches the zero divisor and reports the accumulated
dividend together with it. -/
theorem dividedByAux_first_zero (l1 : List Rational) :
    ∀ (z : Rational) (l2 : List Rational) (n d : Int),
      (∀ t ∈ l1, t.numerator ≠ 0) → z.numerator = 0 →
      ∃ n' d', Rational.dividedByAux n d l1 = .ok (n', d') ∧
        Rational.dividedByAux n d (l1 ++ z :: l2) = .error (⟨n', d'⟩, z) := by
  induction l1 with
  | nil =>
    intro z l2 n d _ hz
    refine ⟨n, d, rfl, ?_⟩
    have hpos : ¬ z.numerator > 0 := by omega
    have hneg : ¬ z.numerator < 0 := by omega
    simp [Rational.dividedByAux, hpos, hneg]
  | cons t ts ih =>
    intro z l2 n d hne hz
    have ht : t.numerator ≠ 0 := hne t (List.mem_cons_self t ts)
    have hne' : ∀ u ∈ ts, u.numerator ≠ 0 :=
      fun u hu => hne u (List.mem_cons_of_mem t hu)
    by_cases hpos : t.numerator > 0
    · obtain ⟨n', d', hok, herr⟩ :=
        ih z l2 (n * t.denominator) (d * t.numerator) hne' hz
      refine ⟨n', d', ?_, ?_⟩
      · simp only [Rational.dividedByAux, if_pos hpos]
        exact hok
      · simp only [List.cons_append, Rational.dividedByAux, if_pos hpos]
        exact herr
    · have hneg : t.numerator < 0 := by omega
      obtain ⟨n', d', hok, herr⟩ :=
        ih z l2 (n * -t.denominator) (d * -t.numerator) hne' hz
      refine ⟨n', d', ?_, ?_⟩
      · simp only [Rational.dividedByAux, if_neg hpos, if_pos hneg]
        exact hok
      · simp only [List.cons_append, Rational.dividedByAux, if_neg hpos, if_pos hneg]
        exact herr

/-- Lifting a successful loop run to `Rational.dividedBy`. -/
theorem dividedBy_eq_ok (a : Rational) (l : List Rational) (n d : Int)
    (h : Rational.dividedByAux a.numerator a.denominator l = .ok (n, d)) :
    a.dividedBy l = .ok ⟨n, d⟩ := by
  unfold Rational.dividedBy
  rw [h]

/-- Lifting a failed loop run to `Rational.dividedBy`. -/
theorem dividedBy_eq_error (a : Rational) (l : List Rational) (e : Rational × Rational)
    (h : Rational.dividedByAux a.numerator a.denominator l = .error e) :
    a.dividedBy l = .error e := by
  unfold Rational.dividedBy
  rw [h]

/-- Claim C7: `Rational.dividedBy` raises its division-by-zero error exactly
when some divisor in the argument list has numerator zero, and the error
payload is the dividend accumulated over the zero-free prefix together with
the offending zero divisor; with all divisors nonzero it returns normally. -/
theorem dividedBy_zero_error (a : Rational) (l : List Rational) :
    ((∃ e, a.dividedBy l = .error e) ↔ ∃ t ∈ l, t.numerator = 0) ∧
    (∀ l1 z l2, l = l1 ++ z :: l2 → (∀ t ∈ l1, t.numerator ≠ 0) → z.numerator = 0 →
      ∃ acc, a.dividedBy l1 = .ok acc ∧ a.dividedBy l = .error (acc, z)) := by
  constructor
  · constructor
    · rintro ⟨e, he⟩
      rcases haux : Rational.dividedByAux a.numerator a.denominator l with e' | ⟨n, d⟩
      · exact (dividedByAux_error_iff l a.numerator a.denominator).mp ⟨e', haux⟩
      · unfold Rational.dividedBy at he
        rw [haux] at he
        simp at he
    · intro hex
      obtain ⟨e, he⟩ := (dividedByAux_error_iff l a.numerator a.denominator).mpr hex
      exact ⟨e, dividedBy_eq_error a l e he⟩
  · rintro l1 z l2 rfl hne hz
    obtain ⟨n', d', hok, herr⟩ :=
      dividedByAux_first_zero l1 z l2 a.numerator a.denominator hne hz
    exact ⟨⟨n', d'⟩, dividedBy_eq_ok a l1 n' d' hok, dividedBy_eq_error a _ _ herr⟩

/-- Witness for C7 at `Rational(1, 1).dividedBy(Rational(0, 1))`: the division
fails and the error carries the dividend so far and the zero divisor. -/
theorem dividedBy_zero_error_witness :
    ∃ acc, Rational.dividedBy ⟨1, 1⟩ [] = .ok acc ∧
      Rational.dividedBy ⟨1, 1⟩ [⟨0, 1⟩] = .error (acc, ⟨0, 1⟩) :=
  (dividedBy_zero_error ⟨1, 1⟩ [⟨0, 1⟩]).2 [] ⟨0, 1⟩ [] rfl (by simp) rfl

/-- Claim C6: for Decimals with nonzero divisor digits, `dividedBy` succeeds
and returns a Rational (the return type of the embedding) whose exact value is
the exact quotient of the two decimal values; in particular dividing the
Decimal 1 by the Decimal 3 yields a Rational that compares equal to
`Rational(1, 3)`. -/
theorem dividedBy_promotes_exact :
    (∀ a b : Decimal, b.digits ≠ 0 →
      ∃ q : Rational, a.dividedBy [b] = .ok q ∧
        q.exactValue = a.exactValue / b.exactValue) ∧
    (∃ q : Rational, Decimal.dividedBy ⟨1, 0⟩ [⟨3, 0⟩] = .ok q ∧
      q.equalTo ⟨1, 3⟩ = true) := by
  constructor
  · intro a b hb
    have hbq : (b.digits : ℚ) ≠ 0 := Int.cast_ne_zero.mpr hb
    have h10a : ((10 : ℚ)) ^ a.scale.toNat ≠ 0 := by positivity
    have h10b : ((10 : ℚ)) ^ b.scale.toNat ≠ 0 := by positivity
    rcases lt_or_gt_of_ne hb with hneg | hpos
    · refine ⟨⟨a.digits * -(10 ^ b.scale.toNat), 10 ^ a.scale.toNat * -b.digits⟩, ?_, ?_⟩
      · simp [Decimal.dividedBy, Decimal.toRational, Rational.dividedBy,
          Rational.dividedByAux, hneg, lt_asymm hneg]
      · simp only [Rational.exactValue, Decimal.exactValue]
        push_cast
        field_simp
    · refine ⟨⟨a.digits * 10 ^ b.scale.toNat, 10 ^ a.scale.toNat * b.digits⟩, ?_, ?_⟩
      · simp [Decimal.dividedBy, Decimal.toRational, Rational.dividedBy,
          Rational.dividedByAux, hpos]
      · simp only [Rational.exactValue, Decimal.exactValue]
        push_cast
        field_simp
  · exact ⟨⟨1, 3⟩, rfl, by decide⟩

/-- Witness for C6 at Decimal 1 divided by Decimal 3: the promoted Rational's
exact value is the exact quotient. -/
theorem dividedBy_promotes_exact_witness :
    ∃ q : Rational, Decimal.dividedBy ⟨1, 0⟩ [⟨3, 0⟩] = .ok q ∧
      q.exactValue = Decimal.exactValue ⟨1, 0⟩ / Decimal.exactValue ⟨3, 0⟩ :=
  dividedBy_promotes_exact.1 ⟨1, 0⟩ ⟨3, 0⟩ (by decide)

/-- Claim C1 (amended): for every valid Decimal whose digits are zero, or whose
scale is zero, or whose digits are not divisible by 10,
`a.toRational().toDecimal(a.scale).equalTo(a)` is true (the claim as frozen,
over ALL Decimals, fails whenever the digits are a nonzero multiple of 10 with
positive scale, because the long-division loop stops as soon as the remainder
is zero but the result still carries the full requested scale; see the
counterexample). -/
theorem roundtrip_amended (a : Decimal) (hs : 0 ≤ a.scale)
    (h : a.digits = 0 ∨ a.scale = 0 ∨ ¬ (10 : Int) ∣ a.digits) :
    Decimal.equalTo ((a.toRational).toDecimal a.scale) a = true := by
  obtain ⟨n, sc⟩ := a
  have hres : Rational.toDecimal (Decimal.toRational ⟨n, sc⟩) sc = ⟨n, sc⟩ := by
    have hloop : toDecimalLoop (((10 : Int) ^ sc.toNat).natAbs + sc.toNat + 1)
        ((10 : Int) ^ sc.toNat) (n.tdiv (10 ^ sc.toNat)) (n.tmod (10 ^ sc.toNat)) 0
        (if isTerminating 10 ((10 : Int) ^ sc.toNat) then none else some sc) = n := by
      rcases h with h0 | hsc0 | h10
      · simp only at h0
        subst h0
        rw [Int.zero_tdiv, Int.zero_tmod, toDecimalLoop_rem_zero]
      · simp only at hsc0
        subst hsc0
        rw [Int.toNat_zero, pow_zero, Int.tdiv_one, Int.tmod_one, toDecimalLoop_rem_zero]
      · simp only at h10
        have hlim : ∀ i : Nat, i < sc.toNat →
            limOK (if isTerminating 10 ((10 : Int) ^ sc.toNat) then none else some sc)
              ((0 : Int) + (i : Int)) = true := by
          intro i hi
          by_cases ht : isTerminating 10 ((10 : Int) ^ sc.toNat) = true
          · rw [if_pos ht]; rfl
          · rw [if_neg ht]
            have : (i : Int) < sc := Int.lt_toNat.mp hi
            simp only [limOK, zero_add, decide_eq_true_eq]
            exact this
        have hfuel : sc.toNat ≤ ((10 : Int) ^ sc.toNat).natAbs + sc.toNat + 1 := by omega
        by_cases hn : 0 ≤ n
        · exact toDecimalLoop_expand _ n sc.toNat _ _ hn rfl h10 hfuel hlim
        · push_neg at hn
          have h10n : ¬ (10 : Int) ∣ -n := fun hd => h10 (dvd_neg.mp hd)
          rw [show n.tdiv (10 ^ sc.toNat) = -((-n).tdiv (10 ^ sc.toNat)) by
              rw [← Int.neg_tdiv, neg_neg],
            show n.tmod ((10 : Int) ^ sc.toNat) = -((-n).tmod (10 ^ sc.toNat)) by
              rw [← neg_tmod, neg_neg],
            toDecimalLoop_neg,
            toDecimalLoop_expand _ (-n) sc.toNat _ _ (by omega) rfl h10n hfuel hlim,
            neg_neg]
    show Rational.toDecimal ⟨n, 10 ^ sc.toNat⟩ sc = ⟨n, sc⟩
    unfold Rational.toDecimal
    simp only [Decimal.mk.injEq]
    exact ⟨hloop, trivial⟩
  rw [hres]
  exact decimal_equalTo_refl n sc

/-- Witness for amended C1 at `Decimal(5, 2)` (0.05): the round trip through
`Rational(5, 100)` back to scale 2 compares equal. -/
theorem roundtrip_amended_witness :
    Decimal.equalTo ((Decimal.toRational ⟨5, 2⟩).toDecimal 2) ⟨5, 2⟩ = true :=
  roundtrip_amended ⟨5, 2⟩ (by decide) (Or.inr (Or.inr (by decide)))

end DecimalJS
